import Mathlib

/-!
# Verification of the adaptive benchmark runner in `benchmark.py`

The file under verification defines an adaptive statistical timing loop:

```
def benchmark(fn, *args, min_total_seconds=1.0, min_iterations=2, **kwargs):
    if min_iterations < 2:
        raise ValueError("min_iterations must be >= 2")
    timer = Timer("fn(*args, **kwargs)", globals=...)
    _ = timer.repeat(number=1, repeat=1)          # warm-up, one invocation
    times = []
    total_time = 0.0
    num_iterations = min_iterations or 1
    while total_time < min_total_seconds:
        _times = timer.repeat(number=1, repeat=num_iterations)
        times.extend(_times)
        _total_time = sum(_times)
        total_time += _total_time
        avg_time = _total_time / num_iterations   # average of THIS batch
        num_iterations = ceil((min_total_seconds - total_time) / avg_time)
    times_tensor = torch.as_tensor(times)
    return BenchmarkResult(mean=times_tensor.mean().item(),
                           std=times_tensor.std().item())
```

We embed it shallowly.  The timed callable is modelled as a `Callable`:
`dur i` is the wall-clock duration of its `i`-th invocation (invocation 0
is the warm-up; invocations are numbered in the order they happen), and
`fails i = true` means the `i`-th invocation raises.  Durations are exact
rationals — the spec only requires agreement "to within floating-point
tolerance", so the exact field is the right abstraction.

Python control flow is made explicit:

* `timerRepeat c s n` models `timer.repeat(number=1, repeat=n)` when `s`
  invocations have already happened.  On error it returns the number of
  invocations performed in total (includes the failing one).
* The `while` loop carries fuel, since Python's loop need not terminate;
  `Outcome.outOfFuel` marks an unfinished run and appears in no claim about
  completed runs.
* `Outcome.invalidArg` models the `ValueError`, `Outcome.callableError`
  models an exception escaping from the callable, `Outcome.zeroDivError`
  models Python's `ZeroDivisionError` (float division by `0.0` raises in
  Python); each error carries the number of invocations performed.
* `Outcome.ok times batches inv` records the list `times`, the same trials
  grouped into the batches the loop ran (ghost instrumentation; their
  concatenation is `times`), and the total invocation count `inv`.

Statistics: `torch.as_tensor(times).mean()` is `NaN` on an empty list and
`torch.as_tensor(times).std()` (unbiased, divides by `N-1`) is `NaN` for
fewer than two entries.  `ℚ` has no `NaN`, so the embedded aggregation
returns `Option ℚ`, with `none` standing for `NaN`; the reported standard
deviation is the real square root of `stdSq`, so claims about `std` are
settled through `stdSq` (`std ≥ 0` and finiteness of `std` amount to
`stdSq` being a defined, non-negative rational).
-/

/-- The callable handed to `benchmark`: the duration of each invocation,
and whether that invocation raises. -/
structure Callable where
  dur : ℕ → ℚ
  fails : ℕ → Bool

/-- A constant-duration callable that never raises. -/
def constCall (q : ℚ) : Callable :=
  ⟨fun _ => q, fun _ => false⟩

/-- Result of a run of `benchmark`, every path made explicit.  Each
constructor carrying a `ℕ` records how many invocations of the callable
happened on that path. -/
inductive Outcome where
  | invalidArg : Outcome
  | callableError : ℕ → Outcome
  | zeroDivError : ℕ → Outcome
  | outOfFuel : ℕ → Outcome
  | ok : List ℚ → List (List ℚ) → ℕ → Outcome
deriving DecidableEq

/-- Invocations of the callable performed during the run.  `invalidArg`
happens before the warm-up, so zero invocations. -/
def Outcome.invocations : Outcome → ℕ
  | .invalidArg => 0
  | .callableError n => n
  | .zeroDivError n => n
  | .outOfFuel n => n
  | .ok _ _ n => n

/-- Did the run complete and return a `BenchmarkResult`? -/
def Outcome.isOk : Outcome → Bool
  | .ok _ _ _ => true
  | _ => false

/-- The recorded per-trial durations of a completed run (`[]` otherwise). -/
def Outcome.times : Outcome → List ℚ
  | .ok t _ _ => t
  | _ => []

/-- The per-batch grouping of the recorded durations of a completed run. -/
def Outcome.batches : Outcome → List (List ℚ)
  | .ok _ b _ => b
  | _ => []

/-- `timer.repeat(number=1, repeat=n)` after `s` earlier invocations:
invoke the callable `n` more times, returning the individual durations, or
on a raise the total invocation count so far (the failing call included). -/
def timerRepeat (c : Callable) : ℕ → ℕ → Except ℕ (List ℚ)
  | _, 0 => Except.ok []
  | s, n + 1 =>
    if c.fails s then Except.error (s + 1)
    else
      match timerRepeat c (s + 1) n with
      | Except.ok ts => Except.ok (c.dur s :: ts)
      | Except.error e => Except.error e

/-- The `while total_time < min_total_seconds` loop of `benchmark`.
State: recorded `times`, their grouping into batches (ghost), the running
`total_time`, the current `num_iterations` (an integer: `ceil` in Python
returns `int`), and the index of the next invocation.  `repeat` with a
non-positive count runs zero trials (Python's `range`), after which the
batch average is `0` — or its computation divides by zero — and Python
raises `ZeroDivisionError`; the two `zeroDivError` branches below cover
`num_iterations = 0` (integer division by zero in `avg_time`) and a zero
batch average (float division by zero in the `ceil` argument). -/
def benchLoop (c : Callable) (minTotal : ℚ) :
    ℕ → List ℚ → List (List ℚ) → ℚ → ℤ → ℕ → Outcome
  | 0, times, batches, totalTime, _, next =>
    if totalTime < minTotal then Outcome.outOfFuel next
    else Outcome.ok times batches next
  | f + 1, times, batches, totalTime, num, next =>
    if totalTime < minTotal then
      match timerRepeat c next num.toNat with
      | Except.error inv => Outcome.callableError inv
      | Except.ok ts =>
        if num = 0 then Outcome.zeroDivError (next + num.toNat)
        else if ts.sum / (num : ℚ) = 0 then Outcome.zeroDivError (next + num.toNat)
        else
          benchLoop c minTotal f (times ++ ts) (batches ++ [ts]) (totalTime + ts.sum)
            ⌈(minTotal - (totalTime + ts.sum)) / (ts.sum / (num : ℚ))⌉ (next + num.toNat)
    else Outcome.ok times batches next

/-- The embedded `benchmark`: argument check, one warm-up invocation, then
the accumulation loop.  `min_iterations or 1` is Python truthiness on the
integer. -/
def benchmark (c : Callable) (minTotal : ℚ) (minIter : ℤ) (fuel : ℕ) : Outcome :=
  if minIter < 2 then Outcome.invalidArg
  else
    match timerRepeat c 0 1 with
    | Except.error inv => Outcome.callableError inv
    | Except.ok _ =>
      benchLoop c minTotal fuel [] [] 0 (if minIter = 0 then 1 else minIter) 1

/-- The value object returned by `benchmark`.  `mean` is
`torch.as_tensor(times).mean().item()` and `stdSq` the square of
`torch.as_tensor(times).std().item()`; `none` stands for `NaN`.  The
reported `std` is the (non-negative, real) square root of `stdSq`. -/
structure BenchmarkResult where
  mean : Option ℚ
  stdSq : Option ℚ
deriving DecidableEq

/-- Both fields of the result are finite (neither `NaN` nor infinite):
in the exact model the only non-finite value a run can produce is the
`NaN` of an empty or one-element reduction, modelled by `none`. -/
def BenchmarkResult.finite (r : BenchmarkResult) : Bool :=
  r.mean.isSome && r.stdSq.isSome

/-- `torch.Tensor.mean` over the recorded durations: `NaN` (here `none`)
on an empty tensor, otherwise the arithmetic mean. -/
def torchMean (l : List ℚ) : Option ℚ :=
  if l.length = 0 then none else some (l.sum / (l.length : ℚ))

/-- The square of `torch.Tensor.std` over the recorded durations: torch's
default is the unbiased estimator dividing by `N - 1`, which is `NaN`
(here `none`) for fewer than two entries. -/
def torchStdSq (l : List ℚ) : Option ℚ :=
  if l.length < 2 then none
  else some ((l.map (fun x => (x - l.sum / (l.length : ℚ)) ^ 2)).sum / ((l.length : ℚ) - 1))

/-- The `BenchmarkResult` of a run, when the run completes. -/
def benchmarkResult (c : Callable) (minTotal : ℚ) (minIter : ℤ) (fuel : ℕ) :
    Option BenchmarkResult :=
  match benchmark c minTotal minIter fuel with
  | Outcome.ok times _ _ => some ⟨torchMean times, torchStdSq times⟩
  | _ => none

/-- Taken from the spec's words, for comparison with the code's
aggregation: the arithmetic mean of the observed durations (undefined on
no observations). -/
def specMean (l : List ℚ) : Option ℚ :=
  if l = [] then none
  else some (l.sum / (l.length : ℚ))

/-- Taken from the spec's words: the sample variance — the square of the
sample standard deviation, "divide by N−1" — about the arithmetic mean,
undefined for fewer than two observations. -/
def specSampleVar (l : List ℚ) : Option ℚ :=
  match specMean l with
  | none => none
  | some m =>
    if l.length < 2 then none
    else some ((l.map (fun x => (x - m) ^ 2)).sum / ((l.length : ℚ) - 1))

/-- Taken from the spec's words, for comparison with the code's
re-estimation: after each batch whose completion still leaves the elapsed
total below the budget, the next batch size is
`ceil((min_total_seconds - elapsed) / a)` with `a` the average over ALL
trial durations recorded so far (`elapsed` divided by the full trial
count).  `elapsed` and `count` accumulate the batches already checked. -/
def specCumChainB (mT : ℚ) : ℚ → ℕ → List (List ℚ) → Bool
  | _, _, [] => true
  | elapsed, count, b :: rest =>
    (match rest with
     | [] => true
     | b' :: _ =>
       decide (¬ elapsed + b.sum < mT ∨
         (b'.length : ℤ) =
           ⌈(mT - (elapsed + b.sum)) / ((elapsed + b.sum) / ((count + b.length : ℕ) : ℚ))⌉))
    && specCumChainB mT (elapsed + b.sum) (count + b.length) rest

/-- What the code actually does, stated over the recorded batch trace:
each batch after the first has the size
`ceil((min_total_seconds - elapsed) / a)` where `elapsed` counts
everything through the previous batch and `a` is the average duration of
the PREVIOUS BATCH alone. -/
def batchChainB (mT : ℚ) : ℚ → List (List ℚ) → Bool
  | _, [] => true
  | elapsed, b :: rest =>
    (match rest with
     | [] => true
     | b' :: _ =>
       decide ((b'.length : ℤ) = ⌈(mT - (elapsed + b.sum)) / (b.sum / (b.length : ℚ))⌉))
    && batchChainB mT (elapsed + b.sum) rest

/-- The shape of the batch suffix a run of the loop appends, entered with
elapsed total `total` and pending requested size `num`: either the budget
is already met and nothing is run, or one batch of the requested size is
run and the rest follows from the state the code moves to.  This is the
inversion principle for `benchLoop` runs that end in `Outcome.ok`. -/
inductive GoodTrace (mT : ℚ) : ℚ → ℤ → List (List ℚ) → Prop where
  | exit (total : ℚ) (num : ℤ) (h : mT ≤ total) : GoodTrace mT total num []
  | step (total : ℚ) (num : ℤ) (ts : List ℚ) (rest : List (List ℚ))
      (hcond : total < mT) (hlen : ts.length = num.toNat)
      (hrest : GoodTrace mT (total + ts.sum)
        ⌈(mT - (total + ts.sum)) / (ts.sum / (num : ℚ))⌉ rest) :
      GoodTrace mT total num (ts :: rest)

/-- The callable of the batch-average counterexample: the warm-up and the
first two trials take `2/5` s, every later trial `1/20` s. -/
def slowThenFast : Callable :=
  ⟨fun i => if i ≤ 2 then 2/5 else 1/20, fun _ => false⟩

/-- A callable that raises on its second invocation (invocation index 1)
and otherwise takes one second. -/
def failsSecond : Callable :=
  ⟨fun _ => 1, fun i => decide (i = 1)⟩

/-- The arithmetic mean as a total rational function (meaningful only for
a non-empty list); `torchMean` returns `some` of this value then. -/
def sampleMeanQ (l : List ℚ) : ℚ :=
  l.sum / (l.length : ℚ)

/-- The sample variance (squared sample standard deviation, dividing by
`N - 1`) as a total rational function (meaningful only for at least two
entries); `torchStdSq` returns `some` of this value then. -/
def sampleVarQ (l : List ℚ) : ℚ :=
  (l.map (fun x => (x - sampleMeanQ l) ^ 2)).sum / ((l.length : ℚ) - 1)

/-! ## Basic facts about `timerRepeat` -/

/-- A successful `timer.repeat` returns exactly as many durations as
requested. -/
theorem timerRepeat_ok_length (c : Callable) :
    ∀ (n s : ℕ) (ts : List ℚ), timerRepeat c s n = Except.ok ts → ts.length = n := by
  intro n
  induction n with
  | zero =>
    intro s ts h
    rw [timerRepeat] at h
    injection h with h
    rw [← h]
    rfl
  | succ n ih =>
    intro s ts h
    rw [timerRepeat] at h
    by_cases hf : c.fails s
    · rw [if_pos hf] at h
      exact absurd h (by simp)
    · rw [if_neg hf] at h
      cases hrec : timerRepeat c (s + 1) n with
      | ok ts' =>
        rw [hrec] at h
        injection h with h
        rw [← h, List.length_cons, ih (s + 1) ts' hrec]
      | error e =>
        rw [hrec] at h
        exact absurd h (by simp)

/-- Every duration a successful `timer.repeat` returns is a duration of
the callable, so it inherits any pointwise property of the latter. -/
theorem timerRepeat_ok_forall (c : Callable) (P : ℚ → Prop) (hP : ∀ i, P (c.dur i)) :
    ∀ (n s : ℕ) (ts : List ℚ), timerRepeat c s n = Except.ok ts → ∀ x ∈ ts, P x := by
  intro n
  induction n with
  | zero =>
    intro s ts h
    rw [timerRepeat] at h
    injection h with h
    rw [← h]
    intro x hx
    exact absurd hx (List.not_mem_nil x)
  | succ n ih =>
    intro s ts h
    rw [timerRepeat] at h
    by_cases hf : c.fails s
    · rw [if_pos hf] at h
      exact absurd h (by simp)
    · rw [if_neg hf] at h
      cases hrec : timerRepeat c (s + 1) n with
      | ok ts' =>
        rw [hrec] at h
        injection h with h
        rw [← h]
        intro x hx
        rcases List.mem_cons.mp hx with hx | hx
        · rw [hx]; exact hP s
        · exact ih (s + 1) ts' hrec x hx
      | error e =>
        rw [hrec] at h
        exact absurd h (by simp)

/-- A callable that never raises always completes a `timer.repeat`. -/
theorem timerRepeat_noFail (c : Callable) (hf : ∀ i, c.fails i = false) :
    ∀ (n s : ℕ), ∃ ts : List ℚ, timerRepeat c s n = Except.ok ts := by
  intro n
  induction n with
  | zero =>
    intro s
    exact ⟨[], rfl⟩
  | succ n ih =>
    intro s
    obtain ⟨ts, hts⟩ := ih (s + 1)
    refine ⟨c.dur s :: ts, ?_⟩
    rw [timerRepeat, if_neg (by rw [hf s]; exact Bool.false_ne_true), hts]

/-! ## The master invariant of the accumulation loop

A completed loop run relates its final recorded state to the state it was
entered with: the running total is the sum of the recorded durations, the
invocation index stays one ahead of the number of recorded trials (the
warm-up), the batch instrumentation concatenates back to the recorded
list, every recorded duration is a duration of the callable, and the
recorded list only ever grows — by at least the pending batch size when
the loop is entered with the budget unmet. -/
theorem benchLoop_ok_master (c : Callable) (mT : ℚ) (P : ℚ → Prop)
    (hP : ∀ i, P (c.dur i)) (fuel : ℕ) :
    ∀ (times : List ℚ) (batches : List (List ℚ)) (total : ℚ) (num : ℤ) (next : ℕ)
      (T : List ℚ) (B : List (List ℚ)) (N : ℕ),
      benchLoop c mT fuel times batches total num next = Outcome.ok T B N →
      total = times.sum → next = times.length + 1 → batches.flatten = times →
      (∀ x ∈ times, P x) →
      mT ≤ T.sum ∧ N = T.length + 1 ∧ B.flatten = T ∧ (∀ x ∈ T, P x) ∧
        times.length ≤ T.length ∧ (total < mT → times.length + num.toNat ≤ T.length) := by
  induction fuel with
  | zero =>
    intro times batches total num next T B N hok htot hnext hjoin hPts
    rw [benchLoop] at hok
    by_cases hlt : total < mT
    · rw [if_pos hlt] at hok
      exact absurd hok (by simp)
    · rw [if_neg hlt] at hok
      injection hok with h1 h2 h3
      subst h1; subst h2; subst h3
      exact ⟨le_of_not_lt (htot ▸ hlt), hnext, hjoin, hPts, le_refl _,
        fun h => absurd h hlt⟩
  | succ f ih =>
    intro times batches total num next T B N hok htot hnext hjoin hPts
    rw [benchLoop] at hok
    by_cases hlt : total < mT
    · rw [if_pos hlt] at hok
      cases hrep : timerRepeat c next num.toNat with
      | error inv =>
        rw [hrep] at hok
        dsimp only at hok
        exact absurd hok (by simp)
      | ok ts =>
        rw [hrep] at hok
        dsimp only at hok
        by_cases hz : num = 0
        · rw [if_pos hz] at hok
          exact absurd hok (by simp)
        · rw [if_neg hz] at hok
          by_cases ha : ts.sum / (num : ℚ) = 0
          · rw [if_pos ha] at hok
            exact absurd hok (by simp)
          · rw [if_neg ha] at hok
            have hlen : ts.length = num.toNat := timerRepeat_ok_length c _ _ _ hrep
            have hPts' : ∀ x ∈ times ++ ts, P x := by
              intro x hx
              rcases List.mem_append.mp hx with hx | hx
              · exact hPts x hx
              · exact timerRepeat_ok_forall c P hP _ _ _ hrep x hx
            have hrec := ih (times ++ ts) (batches ++ [ts]) (total + ts.sum)
              ⌈(mT - (total + ts.sum)) / (ts.sum / (num : ℚ))⌉ (next + num.toNat) T B N hok
              (by rw [htot, List.sum_append])
              (by rw [hnext, List.length_append, hlen]; ring)
              (by rw [List.flatten_append, hjoin]; simp)
              hPts'
            obtain ⟨g1, g2, g3, g4, g5, _⟩ := hrec
            refine ⟨g1, g2, g3, g4, ?_, ?_⟩
            · calc times.length ≤ (times ++ ts).length := by
                    rw [List.length_append]; exact Nat.le_add_right _ _
                _ ≤ T.length := g5
            · intro _
              calc times.length + num.toNat = (times ++ ts).length := by
                    rw [List.length_append, hlen]
                _ ≤ T.length := g5
    · rw [if_neg hlt] at hok
      injection hok with h1 h2 h3
      subst h1; subst h2; subst h3
      exact ⟨le_of_not_lt (htot ▸ hlt), hnext, hjoin, hPts, le_refl _,
        fun h => absurd h hlt⟩

/-! ## Unfolding the top level of `benchmark` -/

/-- A run that completes passed the argument check, its warm-up invocation
returned, and the recorded data is exactly what the loop produced when
started on the empty record with batch size `min_iterations`. -/
theorem benchmark_ok_elim (c : Callable) (mT : ℚ) (mI : ℤ) (fuel : ℕ)
    (T : List ℚ) (B : List (List ℚ)) (N : ℕ)
    (hok : benchmark c mT mI fuel = Outcome.ok T B N) :
    2 ≤ mI ∧ c.fails 0 = false ∧
      benchLoop c mT fuel [] [] 0 mI 1 = Outcome.ok T B N := by
  rw [benchmark] at hok
  by_cases h2 : mI < 2
  · rw [if_pos h2] at hok
    exact absurd hok (by simp)
  · rw [if_neg h2] at hok
    by_cases hf : c.fails 0
    · rw [show timerRepeat c 0 1 = Except.error 1 by rw [timerRepeat, if_pos hf]] at hok
      dsimp only at hok
      exact absurd hok (by simp)
    · have hf0 : c.fails 0 = false := by simpa using hf
      rw [show timerRepeat c 0 1 = Except.ok [c.dur 0] by
        rw [timerRepeat, if_neg hf]; rfl] at hok
      dsimp only at hok
      rw [if_neg (show ¬ mI = 0 by omega)] at hok
      exact ⟨le_of_not_lt h2, hf0, hok⟩

/-! ## Claim theorems: the argument check and the degenerate budget -/

/-- Claim C2 (confirmed): calling `benchmark` with `min_iterations < 2`
(for instance 1, 0, or negative) fails with the `ValueError` before any
timing and before any invocation of the callable — the run performs zero
invocations. -/
theorem benchmark_invalid_min_iterations (c : Callable) (mT : ℚ) (mI : ℤ) (fuel : ℕ)
    (h : mI < 2) :
    benchmark c mT mI fuel = Outcome.invalidArg ∧
      (benchmark c mT mI fuel).invocations = 0 := by
  rw [benchmark, if_pos h]
  exact ⟨rfl, rfl⟩

/-- Witness for C2 at `min_iterations = 1`. -/
theorem benchmark_invalid_min_iterations_witness :
    benchmark (constCall 1) 1 1 5 = Outcome.invalidArg ∧
      (benchmark (constCall 1) 1 1 5).invocations = 0 :=
  benchmark_invalid_min_iterations (constCall 1) 1 1 5 (by norm_num)

/-- Claim C10 (confirmed): with `min_total_seconds ≤ 0` (and a valid
`min_iterations`, and a warm-up that returns) the loop body never runs:
the callable is invoked exactly once — the warm-up — zero trials are
recorded, and `benchmark` still returns a `BenchmarkResult` whose mean and
standard deviation are the `NaN`s of empty reductions (`none` in the
model) rather than raising. -/
theorem benchmark_nonpositive_budget (c : Callable) (mT : ℚ) (mI : ℤ) (fuel : ℕ)
    (hT : mT ≤ 0) (h2 : 2 ≤ mI) (h0 : c.fails 0 = false) :
    benchmark c mT mI fuel = Outcome.ok [] [] 1 ∧
      benchmarkResult c mT mI fuel = some ⟨none, none⟩ := by
  have hmain : benchmark c mT mI fuel = Outcome.ok [] [] 1 := by
    rw [benchmark, if_neg (show ¬ mI < 2 by omega)]
    rw [show timerRepeat c 0 1 = Except.ok [c.dur 0] by
      rw [timerRepeat, if_neg (by rw [h0]; exact Bool.false_ne_true)]; rfl]
    dsimp only
    rw [if_neg (show ¬ mI = 0 by omega)]
    cases fuel with
    | zero => rw [benchLoop, if_neg (not_lt.mpr hT)]
    | succ f => rw [benchLoop, if_neg (not_lt.mpr hT)]
  refine ⟨hmain, ?_⟩
  rw [benchmarkResult, hmain]
  rfl

/-- Witness for C10: budget `0`, `min_iterations = 2`, no fuel needed. -/
theorem benchmark_nonpositive_budget_witness :
    benchmark (constCall 1) 0 2 0 = Outcome.ok [] [] 1 ∧
      benchmarkResult (constCall 1) 0 2 0 = some ⟨none, none⟩ :=
  benchmark_nonpositive_budget (constCall 1) 0 2 0 le_rfl (by norm_num) rfl

/-! ## Counterexamples: the degenerate budget and the missing guards -/

/-- Counterexample to claim C1 as stated: with `min_total_seconds = 0` and
`min_iterations = 2` the run completes and returns a `BenchmarkResult`,
yet it records zero timed trials — fewer than `min_iterations`. -/
theorem benchmark_min_trials_counterexample :
    benchmark (constCall 1) 0 2 1 = Outcome.ok [] [] 1 ∧
      ¬ (2 : ℤ) ≤ ((benchmark (constCall 1) 0 2 1).times.length : ℤ) := by decide

/-- One unfolding of a loop pass that runs a batch and re-estimates.  The
hypotheses are the branch conditions of that pass. -/
theorem benchLoop_step (c : Callable) (mT : ℚ) (f : ℕ) (times : List ℚ)
    (batches : List (List ℚ)) (total : ℚ) (num : ℤ) (next : ℕ) (ts : List ℚ)
    (hlt : total < mT) (hrep : timerRepeat c next num.toNat = Except.ok ts)
    (hnz : ¬ num = 0) (hanz : ¬ ts.sum / (num : ℚ) = 0) :
    benchLoop c mT (f + 1) times batches total num next =
      benchLoop c mT f (times ++ ts) (batches ++ [ts]) (total + ts.sum)
        ⌈(mT - (total + ts.sum)) / (ts.sum / (num : ℚ))⌉ (next + num.toNat) := by
  rw [benchLoop, if_pos hlt, hrep]
  dsimp only
  rw [if_neg hnz, if_neg hanz]

/-- One unfolding of a loop pass whose batch average is zero: the
re-estimation divides by zero and the run aborts. -/
theorem benchLoop_zeroDiv_step (c : Callable) (mT : ℚ) (f : ℕ) (times : List ℚ)
    (batches : List (List ℚ)) (total : ℚ) (num : ℤ) (next : ℕ) (ts : List ℚ)
    (hlt : total < mT) (hrep : timerRepeat c next num.toNat = Except.ok ts)
    (hnz : ¬ num = 0) (ha : ts.sum / (num : ℚ) = 0) :
    benchLoop c mT (f + 1) times batches total num next =
      Outcome.zeroDivError (next + num.toNat) := by
  rw [benchLoop, if_pos hlt, hrep]
  dsimp only
  rw [if_neg hnz, if_pos ha]

/-- Unfolding of the loop once the budget is met: any fuel, exit at once. -/
theorem benchLoop_exit (c : Callable) (mT : ℚ) (fuel : ℕ) (times : List ℚ)
    (batches : List (List ℚ)) (total : ℚ) (num : ℤ) (next : ℕ)
    (h : ¬ total < mT) :
    benchLoop c mT fuel times batches total num next = Outcome.ok times batches next := by
  cases fuel with
  | zero => rw [benchLoop, if_neg h]
  | succ f => rw [benchLoop, if_neg h]

/-- Unfolding of the top level of `benchmark` when the argument check and
the warm-up both pass. -/
theorem benchmark_unfold (c : Callable) (mT : ℚ) (mI : ℤ) (fuel : ℕ)
    (h2 : ¬ mI < 2) (h0 : c.fails 0 = false) :
    benchmark c mT mI fuel = benchLoop c mT fuel [] [] 0 mI 1 := by
  rw [benchmark, if_neg h2]
  rw [show timerRepeat c 0 1 = Except.ok [c.dur 0] from by
    rw [timerRepeat, if_neg (by rw [h0]; exact Bool.false_ne_true)]; rfl]
  dsimp only
  rw [if_neg (show ¬ mI = 0 by omega)]

/-- Counterexample to claim C4 as stated: no epsilon clamp exists.  For a
callable whose measured durations are all exactly zero, the first batch
average is `0` and the re-estimation divides by it: the run aborts with
Python's `ZeroDivisionError` (after 3 invocations: warm-up plus the two
trials of the first batch) and produces no result, so the estimation step
does not succeed for every sequence of observed durations. -/
theorem benchmark_zero_division_counterexample :
    benchmark (constCall 0) 1 2 3 = Outcome.zeroDivError 3 ∧
      benchmarkResult (constCall 0) 1 2 3 = none := by
  have hrun : benchmark (constCall 0) 1 2 3 = Outcome.zeroDivError 3 := by
    rw [benchmark_unfold (constCall 0) 1 2 3 (by norm_num) rfl]
    calc benchLoop (constCall 0) 1 3 [] [] 0 2 1
        = benchLoop (constCall 0) 1 (2 + 1) [] [] 0 2 1 := rfl
      _ = Outcome.zeroDivError (1 + (2 : ℤ).toNat) :=
          benchLoop_zeroDiv_step (constCall 0) 1 2 [] [] 0 2 1 [0, 0]
            (by norm_num) rfl (by norm_num)
            (by norm_num [List.sum_cons, List.sum_nil])
      _ = Outcome.zeroDivError 3 := rfl
  exact ⟨hrun, by rw [benchmarkResult, hrun]⟩

/-- Counterexample to claim C8 as stated: the run with
`min_total_seconds = 0` completes without error but records no trials, so
both fields of its `BenchmarkResult` are `NaN` (`none`) — not finite, and
`std ≥ 0` fails since `NaN ≥ 0` is false for floats. -/
theorem benchmark_result_nan_counterexample :
    benchmarkResult (constCall 1) 0 2 1 = some ⟨none, none⟩ ∧
      (BenchmarkResult.mk none none).finite = false := by decide

/-- The completed trace of the batch-average counterexample run: a first
batch of two `2/5` s trials (total `4/5`), a second batch of one `1/20` s
trial (total `17/20`, batch average `1/20`, so 3 more trials requested),
and a third batch of three `1/20` s trials reaching the `1` s budget. -/
theorem slowThenFast_run :
    benchmark slowThenFast 1 2 5 =
      Outcome.ok [2/5, 2/5, 1/20, 1/20, 1/20, 1/20]
        [[2/5, 2/5], [1/20], [1/20, 1/20, 1/20]] 7 := by
  rw [benchmark_unfold slowThenFast 1 2 5 (by norm_num) rfl]
  calc benchLoop slowThenFast 1 5 [] [] 0 2 1
      = benchLoop slowThenFast 1 (4 + 1) [] [] 0 2 1 := rfl
    _ = benchLoop slowThenFast 1 4 [2/5, 2/5] [[2/5, 2/5]] (4/5) 1 3 := by
        rw [benchLoop_step slowThenFast 1 4 [] [] 0 2 1 [2/5, 2/5]
          (by norm_num) rfl (by norm_num)
          (by norm_num [List.sum_cons, List.sum_nil])]
        congr 1
        · norm_num [List.sum_cons, List.sum_nil]
        · rw [Int.ceil_eq_iff]
          norm_num [List.sum_cons, List.sum_nil]
    _ = benchLoop slowThenFast 1 (3 + 1) [2/5, 2/5] [[2/5, 2/5]] (4/5) 1 3 := rfl
    _ = benchLoop slowThenFast 1 3 [2/5, 2/5, 1/20] [[2/5, 2/5], [1/20]] (17/20) 3 4 := by
        rw [benchLoop_step slowThenFast 1 3 [2/5, 2/5] [[2/5, 2/5]] (4/5) 1 3 [1/20]
          (by norm_num) rfl (by norm_num)
          (by norm_num [List.sum_cons, List.sum_nil])]
        congr 1
        · norm_num [List.sum_cons, List.sum_nil]
        · rw [Int.ceil_eq_iff]
          norm_num [List.sum_cons, List.sum_nil]
    _ = benchLoop slowThenFast 1 (2 + 1) [2/5, 2/5, 1/20] [[2/5, 2/5], [1/20]] (17/20) 3 4 := rfl
    _ = benchLoop slowThenFast 1 2 [2/5, 2/5, 1/20, 1/20, 1/20, 1/20]
          [[2/5, 2/5], [1/20], [1/20, 1/20, 1/20]] 1 0 7 := by
        rw [benchLoop_step slowThenFast 1 2 [2/5, 2/5, 1/20] [[2/5, 2/5], [1/20]] (17/20) 3 4
          [1/20, 1/20, 1/20]
          (by norm_num) rfl (by norm_num)
          (by norm_num [List.sum_cons, List.sum_nil])]
        congr 1
        · norm_num [List.sum_cons, List.sum_nil]
        · rw [Int.ceil_eq_iff]
          norm_num [List.sum_cons, List.sum_nil]
    _ = Outcome.ok [2/5, 2/5, 1/20, 1/20, 1/20, 1/20]
          [[2/5, 2/5], [1/20], [1/20, 1/20, 1/20]] 7 :=
        benchLoop_exit slowThenFast 1 2 _ _ 1 0 7 (by norm_num)

/-- Counterexample to claim C3 as stated: on the `slowThenFast` run the
loop's third batch has 3 trials — `ceil((1 - 17/20) / (1/20))` computed
from the SECOND BATCH's average `1/20` alone — while the claim's formula,
the average over all 3 trials recorded so far (`17/60`), would request
`ceil((3/20) / (17/60)) = 1`. -/
theorem benchmark_batch_average_counterexample :
    (benchmark slowThenFast 1 2 5).isOk = true ∧
      specCumChainB 1 0 0 (benchmark slowThenFast 1 2 5).batches = false := by
  rw [slowThenFast_run]
  refine ⟨rfl, ?_⟩
  show specCumChainB 1 0 0 [[2/5, 2/5], [1/20], [1/20, 1/20, 1/20]] = false
  rw [specCumChainB, specCumChainB]
  have h2 : decide (¬ (0 : ℚ) + [(2:ℚ)/5, 2/5].sum + [(1:ℚ)/20].sum < 1 ∨
      (([(1:ℚ)/20, 1/20, 1/20].length : ℤ) =
        ⌈((1 : ℚ) - ((0 : ℚ) + [(2:ℚ)/5, 2/5].sum + [(1:ℚ)/20].sum)) /
          (((0 : ℚ) + [(2:ℚ)/5, 2/5].sum + [(1:ℚ)/20].sum) /
            (((0 + [(2:ℚ)/5, 2/5].length + [(1:ℚ)/20].length : ℕ)) : ℚ))⌉)) = false := by
    rw [decide_eq_false_iff_not]
    push_neg
    refine ⟨by norm_num [List.sum_cons, List.sum_nil], ?_⟩
    rw [show ⌈((1 : ℚ) - ((0 : ℚ) + [(2:ℚ)/5, 2/5].sum + [(1:ℚ)/20].sum)) /
          (((0 : ℚ) + [(2:ℚ)/5, 2/5].sum + [(1:ℚ)/20].sum) /
            (((0 + [(2:ℚ)/5, 2/5].length + [(1:ℚ)/20].length : ℕ)) : ℚ))⌉ = 1 from by
        rw [Int.ceil_eq_iff]
        norm_num [List.sum_cons, List.sum_nil]]
    norm_num
  rw [h2]
  simp

/-! ## Small list-arithmetic helpers -/

/-- A list of copies of `d` sums to its length times `d`. -/
theorem list_sum_eq_length_mul (d : ℚ) :
    ∀ l : List ℚ, (∀ x ∈ l, x = d) → l.sum = (l.length : ℚ) * d := by
  intro l
  induction l with
  | nil => intro _; simp
  | cons a l ih =>
    intro h
    have ha : a = d := h a (List.mem_cons_self a l)
    have hl : l.sum = (l.length : ℚ) * d := ih fun x hx => h x (List.mem_cons_of_mem a hx)
    rw [List.sum_cons, ha, hl, List.length_cons]
    push_cast
    ring

/-- A list of entries each at least `d` sums to at least its length times
`d`. -/
theorem list_length_mul_le_sum (d : ℚ) :
    ∀ l : List ℚ, (∀ x ∈ l, d ≤ x) → (l.length : ℚ) * d ≤ l.sum := by
  intro l
  induction l with
  | nil => intro _; simp
  | cons a l ih =>
    intro h
    have ha : d ≤ a := h a (List.mem_cons_self a l)
    have hl : (l.length : ℚ) * d ≤ l.sum := ih fun x hx => h x (List.mem_cons_of_mem a hx)
    rw [List.sum_cons, List.length_cons]
    push_cast
    nlinarith

/-! ## A fully evaluated reference run, shared by the witnesses

`constCall (1/2)` with budget `1`: the warm-up, then one batch of two
trials of `1/2` s meets the budget exactly, and the loop exits with the
re-estimated next size `ceil(0 / (1/2)) = 0` never used. -/

/-- The completed run of the half-second constant callable. -/
theorem benchRun_half :
    benchmark (constCall (1/2)) 1 2 3 = Outcome.ok [1/2, 1/2] [[1/2, 1/2]] 3 := by
  rw [benchmark_unfold (constCall (1/2)) 1 2 3 (by norm_num) rfl]
  calc benchLoop (constCall (1/2)) 1 3 [] [] 0 2 1
      = benchLoop (constCall (1/2)) 1 (2 + 1) [] [] 0 2 1 := rfl
    _ = benchLoop (constCall (1/2)) 1 2 [1/2, 1/2] [[1/2, 1/2]] 1 0 3 := by
        rw [benchLoop_step (constCall (1/2)) 1 2 [] [] 0 2 1 [1/2, 1/2]
          (by norm_num) rfl (by norm_num)
          (by norm_num [List.sum_cons, List.sum_nil])]
        congr 1
        · norm_num [List.sum_cons, List.sum_nil]
        · rw [Int.ceil_eq_iff]
          norm_num [List.sum_cons, List.sum_nil]
    _ = Outcome.ok [1/2, 1/2] [[1/2, 1/2]] 3 :=
        benchLoop_exit (constCall (1/2)) 1 2 _ _ 1 0 3 (by norm_num)

/-! ## Claim theorems: trial-count and budget floors, accounting, statistics -/

/-- Claim C1 (amended: the guarantee needs `min_total_seconds > 0`; with a
non-positive budget the loop never runs and zero trials are recorded, see
the counterexample): for every completed run with a positive budget, at
least `min_iterations` timed trials are recorded and their durations sum
to at least `min_total_seconds`; for a constant-duration callable taking
`d > 0` seconds per call, at least `max(min_iterations, ceil(min_total_seconds / d))`
timed trials are recorded. -/
theorem benchmark_min_trials (c : Callable) (mT : ℚ) (mI : ℤ) (fuel : ℕ)
    (T : List ℚ) (B : List (List ℚ)) (N : ℕ) (d : ℚ)
    (hT : 0 < mT)
    (hok : benchmark c mT mI fuel = Outcome.ok T B N) :
    mI ≤ (T.length : ℤ) ∧ mT ≤ T.sum ∧
      ((∀ i, c.dur i = d) → 0 < d → max mI ⌈mT / d⌉ ≤ (T.length : ℤ)) := by
  obtain ⟨h2, hf0, hloop⟩ := benchmark_ok_elim c mT mI fuel T B N hok
  obtain ⟨g1, g2, g3, g4, g5, g6⟩ :=
    benchLoop_ok_master c mT (fun x => ∃ j, x = c.dur j) (fun i => ⟨i, rfl⟩)
      fuel [] [] 0 mI 1 T B N hloop rfl rfl rfl (by intro x hx; cases hx)
  have hlen : mI.toNat ≤ T.length := by simpa using g6 hT
  have hmi : mI ≤ (T.length : ℤ) := by omega
  refine ⟨hmi, g1, ?_⟩
  intro hd hdpos
  have hall : ∀ x ∈ T, x = d := by
    intro x hx
    obtain ⟨j, hj⟩ := g4 x hx
    rw [hj, hd j]
  have hsum : T.sum = (T.length : ℚ) * d := list_sum_eq_length_mul d T hall
  have hceil : ⌈mT / d⌉ ≤ (T.length : ℤ) := by
    rw [Int.ceil_le, div_le_iff₀ hdpos]
    calc mT ≤ T.sum := g1
      _ = (T.length : ℚ) * d := hsum
      _ = ((T.length : ℤ) : ℚ) * d := by push_cast; ring
  exact max_le hmi hceil

/-- Witness for C1 on the reference run: budget `1`, two trials of `1/2`
recorded, trial count at least 2 and recorded total at least the budget. -/
theorem benchmark_min_trials_witness :
    (2 : ℤ) ≤ (([1/2, 1/2] : List ℚ).length : ℤ) ∧ (1 : ℚ) ≤ ([1/2, 1/2] : List ℚ).sum :=
  (fun h => ⟨h.1, h.2.1⟩)
    (benchmark_min_trials (constCall (1/2)) 1 2 3 [1/2, 1/2] [[1/2, 1/2]] 3 (1/2)
      (by norm_num) benchRun_half)

/-- Claim C5 (confirmed): exactly one untimed warm-up invocation precedes
measurement, so a completed run invokes the callable once more than the
number of recorded timed trials; and the statistics are computed over
exactly the recorded trials, the warm-up excluded. -/
theorem benchmark_warmup_accounting (c : Callable) (mT : ℚ) (mI : ℤ) (fuel : ℕ)
    (T : List ℚ) (B : List (List ℚ)) (N : ℕ)
    (hok : benchmark c mT mI fuel = Outcome.ok T B N) :
    N = 1 + T.length ∧
      benchmarkResult c mT mI fuel = some ⟨torchMean T, torchStdSq T⟩ := by
  obtain ⟨h2, hf0, hloop⟩ := benchmark_ok_elim c mT mI fuel T B N hok
  obtain ⟨g1, g2, g3, g4, g5, g6⟩ :=
    benchLoop_ok_master c mT (fun _ => True) (fun _ => trivial)
      fuel [] [] 0 mI 1 T B N hloop rfl rfl rfl (fun x hx => trivial)
  refine ⟨by omega, ?_⟩
  rw [benchmarkResult, hok]

/-- Witness for C5 on the reference run: 3 invocations, 2 recorded trials. -/
theorem benchmark_warmup_accounting_witness :
    (3 : ℕ) = 1 + ([1/2, 1/2] : List ℚ).length ∧
      benchmarkResult (constCall (1/2)) 1 2 3 =
        some ⟨torchMean [1/2, 1/2], torchStdSq [1/2, 1/2]⟩ :=
  benchmark_warmup_accounting (constCall (1/2)) 1 2 3 [1/2, 1/2] [[1/2, 1/2]] 3 benchRun_half

/-- The code's mean (torch's) is the spec's arithmetic mean, `NaN` cases
included. -/
theorem torchMean_eq_specMean (l : List ℚ) : torchMean l = specMean l := by
  simp [torchMean, specMean, List.length_eq_zero]

/-- The code's squared standard deviation (torch's, unbiased) is the
spec's sample variance about the arithmetic mean, `NaN` cases included. -/
theorem torchStdSq_eq_specSampleVar (l : List ℚ) : torchStdSq l = specSampleVar l := by
  rw [torchStdSq, specSampleVar, specMean]
  by_cases h : l = []
  · subst h; rfl
  · rw [if_neg h]

/-- Claim C6 (confirmed): every completed run reports exactly the
arithmetic mean of the recorded per-trial durations and the sample
standard deviation (the `N − 1` formula) about it, computed over exactly
the recorded trials, warm-up excluded — here exactly, which subsumes the
claim's floating-point tolerance. -/
theorem benchmark_statistics (c : Callable) (mT : ℚ) (mI : ℤ) (fuel : ℕ)
    (T : List ℚ) (B : List (List ℚ)) (N : ℕ)
    (hok : benchmark c mT mI fuel = Outcome.ok T B N) :
    benchmarkResult c mT mI fuel = some ⟨specMean T, specSampleVar T⟩ := by
  rw [benchmarkResult, hok, ← torchMean_eq_specMean, ← torchStdSq_eq_specSampleVar]

/-- Witness for C6 on the reference run. -/
theorem benchmark_statistics_witness :
    benchmarkResult (constCall (1/2)) 1 2 3 =
      some ⟨specMean [1/2, 1/2], specSampleVar [1/2, 1/2]⟩ :=
  benchmark_statistics (constCall (1/2)) 1 2 3 [1/2, 1/2] [[1/2, 1/2]] 3 benchRun_half

/-- A `timer.repeat` whose invocations all precede the callable's first
raise completes. -/
theorem timerRepeat_ok_below (c : Callable) (j : ℕ)
    (hfirst : ∀ i, i < j → c.fails i = false) :
    ∀ (n s : ℕ), s + n ≤ j → ∃ ts, timerRepeat c s n = Except.ok ts := by
  intro n
  induction n with
  | zero =>
    intro s _
    exact ⟨[], rfl⟩
  | succ n ih =>
    intro s hb
    obtain ⟨ts, hts⟩ := ih (s + 1) (by omega)
    refine ⟨c.dur s :: ts, ?_⟩
    rw [timerRepeat, if_neg (by rw [hfirst s (by omega)]; exact Bool.false_ne_true), hts]

/-- A `timer.repeat` that reaches the callable's first raising invocation
`j` propagates the raise at once: the batch aborts with `j + 1`
invocations performed in total — the raising call the last — and no
duration of the batch is recorded. -/
theorem timerRepeat_hits_fail (c : Callable) (j : ℕ)
    (hj : c.fails j = true) (hfirst : ∀ i, i < j → c.fails i = false) :
    ∀ (n s : ℕ), s ≤ j → j < s + n → timerRepeat c s n = Except.error (j + 1) := by
  intro n
  induction n with
  | zero =>
    intro s hs hlt
    exact absurd hlt (by omega)
  | succ n ih =>
    intro s hs hlt
    by_cases hsj : s = j
    · subst hsj
      rw [timerRepeat, if_pos hj]
    · rw [timerRepeat, if_neg (by rw [hfirst s (by omega)]; exact Bool.false_ne_true),
        ih (s + 1) (by omega) (by omega)]

/-- Through the loop, a callable whose first raise is at invocation `j`
either aborts the run as `callableError (j + 1)` — the raise propagated as
soon as invocation `j` happened — or invocation `j` is never performed and
no error is ever propagated. -/
theorem benchLoop_first_fail (c : Callable) (mT : ℚ) (j : ℕ)
    (hj : c.fails j = true) (hfirst : ∀ i, i < j → c.fails i = false) (fuel : ℕ) :
    ∀ (times : List ℚ) (batches : List (List ℚ)) (total : ℚ) (num : ℤ) (next : ℕ),
      next ≤ j →
      benchLoop c mT fuel times batches total num next = Outcome.callableError (j + 1) ∨
      ((benchLoop c mT fuel times batches total num next).invocations ≤ j ∧
        ∀ n, benchLoop c mT fuel times batches total num next ≠ Outcome.callableError n) := by
  induction fuel with
  | zero =>
    intro times batches total num next hnext
    right
    rw [benchLoop]
    by_cases hlt : total < mT
    · rw [if_pos hlt]
      exact ⟨hnext, by simp⟩
    · rw [if_neg hlt]
      exact ⟨hnext, by simp⟩
  | succ f ih =>
    intro times batches total num next hnext
    rw [benchLoop]
    by_cases hlt : total < mT
    · rw [if_pos hlt]
      by_cases hreach : j < next + num.toNat
      · left
        rw [timerRepeat_hits_fail c j hj hfirst num.toNat next hnext hreach]
      · obtain ⟨ts, hts⟩ := timerRepeat_ok_below c j hfirst num.toNat next (by omega)
        rw [hts]
        dsimp only
        by_cases hz : num = 0
        · rw [if_pos hz]
          right
          refine ⟨?_, by simp⟩
          show next + num.toNat ≤ j
          omega
        · rw [if_neg hz]
          by_cases ha : ts.sum / (num : ℚ) = 0
          · rw [if_pos ha]
            right
            refine ⟨?_, by simp⟩
            show next + num.toNat ≤ j
            omega
          · rw [if_neg ha]
            exact ih _ _ _ _ _ (by omega)
    · rw [if_neg hlt]
      right
      exact ⟨hnext, by simp⟩

/-- Claim C7 (confirmed): if the callable raises during the warm-up
invocation or during any timed trial, `benchmark` propagates that error
immediately and uncaught, with no result constructed.  Formalised over the
first invocation `j` at which the callable raises: either the run reaches
invocation `j` — then it aborts at once as `callableError` with exactly
`j + 1` invocations performed, the raising call the last, and
`benchmarkResult` is `none` — or the run never performs invocation `j`, so
no raise happened during warm-up or any trial and nothing propagates.  The
named instances follow: a raise during the warm-up (`j = 0`) propagates
whenever the argument check passes, and a raise on the second invocation
(`j = 1`, the first timed trial) aborts the run with exactly 2 invocations
— 1 warm-up plus 1 first timed trial — and no result. -/
theorem benchmark_error_propagation (c : Callable) (mT : ℚ) (mI : ℤ) (fuel : ℕ) (j : ℕ)
    (hj : c.fails j = true) (hfirst : ∀ i, i < j → c.fails i = false) :
    ((benchmark c mT mI fuel = Outcome.callableError (j + 1) ∧
        benchmarkResult c mT mI fuel = none) ∨
      ((benchmark c mT mI fuel).invocations ≤ j ∧
        ∀ n, benchmark c mT mI fuel ≠ Outcome.callableError n)) ∧
    (j = 0 → ¬ mI < 2 → benchmark c mT mI fuel = Outcome.callableError 1) ∧
    (j = 1 → 2 ≤ mI → 0 < mT → 0 < fuel →
      benchmark c mT mI fuel = Outcome.callableError 2 ∧
      benchmarkResult c mT mI fuel = none ∧
      (benchmark c mT mI fuel).invocations = 2) := by
  have hgen : benchmark c mT mI fuel = Outcome.callableError (j + 1) ∨
      ((benchmark c mT mI fuel).invocations ≤ j ∧
        ∀ n, benchmark c mT mI fuel ≠ Outcome.callableError n) := by
    rw [benchmark]
    by_cases h2 : mI < 2
    · rw [if_pos h2]
      exact Or.inr ⟨Nat.zero_le j, by simp⟩
    · rw [if_neg h2]
      by_cases hj0 : j = 0
      · subst hj0
        rw [show timerRepeat c 0 1 = Except.error 1 from by rw [timerRepeat, if_pos hj]]
        exact Or.inl rfl
      · have h0 : c.fails 0 = false := hfirst 0 (by omega)
        rw [show timerRepeat c 0 1 = Except.ok [c.dur 0] from by
          rw [timerRepeat, if_neg (by rw [h0]; exact Bool.false_ne_true)]; rfl]
        dsimp only
        rw [if_neg (show ¬ mI = 0 by omega)]
        exact benchLoop_first_fail c mT j hj hfirst fuel [] [] 0 mI 1 (by omega)
  refine ⟨?_, ?_, ?_⟩
  · rcases hgen with h | h
    · exact Or.inl ⟨h, by rw [benchmarkResult, h]⟩
    · exact Or.inr h
  · intro hj0 h2
    subst hj0
    rw [benchmark, if_neg h2, show timerRepeat c 0 1 = Except.error 1 from by
      rw [timerRepeat, if_pos hj]]
  · intro hj1 h2 hT hf
    subst hj1
    have h0 : c.fails 0 = false := hfirst 0 (by omega)
    have hmain : benchmark c mT mI fuel = Outcome.callableError 2 := by
      rw [benchmark_unfold c mT mI fuel (by omega) h0]
      obtain ⟨f, rfl⟩ : ∃ f, fuel = f + 1 := ⟨fuel - 1, by omega⟩
      rw [benchLoop, if_pos hT]
      have hrep : timerRepeat c 1 mI.toNat = Except.error 2 := by
        obtain ⟨k, hk⟩ : ∃ k, mI.toNat = k + 1 := ⟨mI.toNat - 1, by omega⟩
        rw [hk, timerRepeat, if_pos hj]
      rw [hrep]
    exact ⟨hmain, by rw [benchmarkResult, hmain], by rw [hmain]; rfl⟩

/-- Witness for C7: `failsSecond` first raises at invocation 1; applying
the theorem there, the run aborts after exactly two invocations — warm-up
plus one timed trial — with no result. -/
theorem benchmark_error_propagation_witness :
    benchmark failsSecond 1 2 3 = Outcome.callableError 2 ∧
      benchmarkResult failsSecond 1 2 3 = none ∧
      (benchmark failsSecond 1 2 3).invocations = 2 :=
  (benchmark_error_propagation failsSecond 1 2 3 1 rfl
      (fun i hi => by
        have h : i = 0 := by omega
        subst h
        rfl)).2.2
    rfl (by norm_num) (by norm_num) (by norm_num)

/-- Claim C8 (amended: the field invariants need at least the two trials a
positive budget guarantees; a run with `min_total_seconds ≤ 0` completes
with both fields `NaN`, see the counterexample): every completed run with
a positive budget returns defined (finite) mean and standard-deviation
fields, and the squared standard deviation is non-negative — so the
reported `std`, its square root, is a well-defined non-negative finite
value.  Immutability holds by construction: the result is a value built
once at return (`NamedTuple` in the source). -/
theorem benchmark_result_invariant (c : Callable) (mT : ℚ) (mI : ℤ) (fuel : ℕ)
    (T : List ℚ) (B : List (List ℚ)) (N : ℕ)
    (hT : 0 < mT)
    (hok : benchmark c mT mI fuel = Outcome.ok T B N) :
    benchmarkResult c mT mI fuel =
        some ⟨some (sampleMeanQ T), some (sampleVarQ T)⟩ ∧
      0 ≤ sampleVarQ T ∧
      (BenchmarkResult.mk (some (sampleMeanQ T)) (some (sampleVarQ T))).finite = true := by
  obtain ⟨h2, hf0, hloop⟩ := benchmark_ok_elim c mT mI fuel T B N hok
  obtain ⟨g1, g2, g3, g4, g5, g6⟩ :=
    benchLoop_ok_master c mT (fun _ => True) (fun _ => trivial)
      fuel [] [] 0 mI 1 T B N hloop rfl rfl rfl (fun x hx => trivial)
  have hlen2 : 2 ≤ T.length := by
    have h6 : mI.toNat ≤ T.length := by simpa using g6 hT
    omega
  refine ⟨?_, ?_, rfl⟩
  · rw [benchmarkResult, hok]
    dsimp only
    have hne : ¬ T.length = 0 := by omega
    have hlt : ¬ T.length < 2 := by omega
    rw [show torchMean T = some (sampleMeanQ T) from by rw [torchMean, if_neg hne]; rfl,
      show torchStdSq T = some (sampleVarQ T) from by rw [torchStdSq, if_neg hlt]; rfl]
  · apply div_nonneg
    · apply List.sum_nonneg
      intro x hx
      obtain ⟨y, hy, rfl⟩ := List.mem_map.mp hx
      positivity
    · have h2q : (2 : ℚ) ≤ (T.length : ℚ) := by exact_mod_cast hlen2
      linarith

/-- Witness for C8 on the reference run. -/
theorem benchmark_result_invariant_witness :
    benchmarkResult (constCall (1/2)) 1 2 3 =
        some ⟨some (sampleMeanQ [1/2, 1/2]), some (sampleVarQ [1/2, 1/2])⟩ ∧
      0 ≤ sampleVarQ [1/2, 1/2] ∧
      (BenchmarkResult.mk (some (sampleMeanQ [1/2, 1/2]))
        (some (sampleVarQ [1/2, 1/2]))).finite = true :=
  benchmark_result_invariant (constCall (1/2)) 1 2 3 [1/2, 1/2] [[1/2, 1/2]] 3
    (by norm_num) benchRun_half

/-- With positive observed durations every batch average is positive, so
no pass of the loop ever divides by zero.  The side condition carries the
reachability invariant that the pending batch size is positive whenever
the loop is entered. -/
theorem benchLoop_no_zeroDiv (c : Callable) (mT : ℚ)
    (hpos : ∀ i, 0 < c.dur i) (fuel : ℕ) :
    ∀ (times : List ℚ) (batches : List (List ℚ)) (total : ℚ) (num : ℤ) (next : ℕ) (n : ℕ),
      (total < mT → 1 ≤ num) →
      benchLoop c mT fuel times batches total num next ≠ Outcome.zeroDivError n := by
  induction fuel with
  | zero =>
    intro times batches total num next n hnum h
    rw [benchLoop] at h
    by_cases hlt : total < mT
    · rw [if_pos hlt] at h
      exact absurd h (by simp)
    · rw [if_neg hlt] at h
      exact absurd h (by simp)
  | succ f ih =>
    intro times batches total num next n hnum h
    rw [benchLoop] at h
    by_cases hlt : total < mT
    · rw [if_pos hlt] at h
      cases hrep : timerRepeat c next num.toNat with
      | error inv =>
        rw [hrep] at h
        dsimp only at h
        exact absurd h (by simp)
      | ok ts =>
        rw [hrep] at h
        dsimp only at h
        have hn1 : 1 ≤ num := hnum hlt
        rw [if_neg (show ¬ num = 0 by omega)] at h
        have htslen : ts.length = num.toNat := timerRepeat_ok_length c _ _ _ hrep
        have htsne : ts ≠ [] := by
          intro he
          rw [he] at htslen
          simp at htslen
          omega
        have htspos : 0 < ts.sum :=
          List.sum_pos ts (timerRepeat_ok_forall c (0 < ·) hpos _ _ _ hrep) htsne
        have hnq : (0 : ℚ) < (num : ℚ) := by exact_mod_cast (by omega : (0 : ℤ) < num)
        have havg : 0 < ts.sum / (num : ℚ) := div_pos htspos hnq
        rw [if_neg (ne_of_gt havg)] at h
        refine ih _ _ _ _ _ n ?_ h
        intro hlt'
        have hq : 0 < (mT - (total + ts.sum)) / (ts.sum / (num : ℚ)) :=
          div_pos (by linarith) havg
        have := Int.ceil_pos.mpr hq
        omega
    · rw [if_neg hlt] at h
      exact absurd h (by simp)

/-- Claim C4 (amended: the source has no epsilon clamp — an all-zero batch
makes the re-estimation raise `ZeroDivisionError`, see the counterexample;
what does hold is that the division is safe whenever the observed
durations are positive, as real wall-clock durations of this benchmark
are): for a callable with positive per-invocation durations, no run of
`benchmark` ever aborts with a division by zero. -/
theorem benchmark_no_zero_division (c : Callable) (mT : ℚ) (mI : ℤ) (fuel : ℕ)
    (hpos : ∀ i, 0 < c.dur i) :
    ∀ n, benchmark c mT mI fuel ≠ Outcome.zeroDivError n := by
  intro n
  rw [benchmark]
  by_cases h2 : mI < 2
  · rw [if_pos h2]
    simp
  · rw [if_neg h2]
    by_cases hw : c.fails 0
    · rw [show timerRepeat c 0 1 = Except.error 1 from by rw [timerRepeat, if_pos hw]]
      dsimp only
      simp
    · rw [show timerRepeat c 0 1 = Except.ok [c.dur 0] from by
        rw [timerRepeat, if_neg hw]; rfl]
      dsimp only
      rw [if_neg (show ¬ mI = 0 by omega)]
      exact benchLoop_no_zeroDiv c mT hpos fuel [] [] 0 mI 1 n (fun _ => by omega)

/-- Witness for C4 (amended) at the half-second constant callable. -/
theorem benchmark_no_zero_division_witness :
    benchmark (constCall (1/2)) 1 2 3 ≠ Outcome.zeroDivError 3 :=
  benchmark_no_zero_division (constCall (1/2)) 1 2 3
    (fun i => by norm_num [constCall]) 3

/-! ## The trace of a completed loop run -/

/-- A completed loop run appends to the entry batches a suffix that is a
well-formed trace: each appended batch was run because the budget was
unmet, has the size requested at that point, and the requested size
evolves exactly by the code's batch-average re-estimation. -/
theorem benchLoop_ok_goodTrace (c : Callable) (mT : ℚ) (fuel : ℕ) :
    ∀ (times : List ℚ) (batches : List (List ℚ)) (total : ℚ) (num : ℤ) (next : ℕ)
      (T : List ℚ) (B : List (List ℚ)) (N : ℕ),
      benchLoop c mT fuel times batches total num next = Outcome.ok T B N →
      ∃ F, B = batches ++ F ∧ GoodTrace mT total num F := by
  induction fuel with
  | zero =>
    intro times batches total num next T B N hok
    rw [benchLoop] at hok
    by_cases hlt : total < mT
    · rw [if_pos hlt] at hok
      exact absurd hok (by simp)
    · rw [if_neg hlt] at hok
      injection hok with h1 h2 h3
      exact ⟨[], by rw [← h2]; simp, GoodTrace.exit total num (le_of_not_lt hlt)⟩
  | succ f ih =>
    intro times batches total num next T B N hok
    rw [benchLoop] at hok
    by_cases hlt : total < mT
    · rw [if_pos hlt] at hok
      cases hrep : timerRepeat c next num.toNat with
      | error inv =>
        rw [hrep] at hok
        dsimp only at hok
        exact absurd hok (by simp)
      | ok ts =>
        rw [hrep] at hok
        dsimp only at hok
        by_cases hz : num = 0
        · rw [if_pos hz] at hok
          exact absurd hok (by simp)
        · rw [if_neg hz] at hok
          by_cases ha : ts.sum / (num : ℚ) = 0
          · rw [if_pos ha] at hok
            exact absurd hok (by simp)
          · rw [if_neg ha] at hok
            obtain ⟨F, hBF, hGT⟩ := ih _ _ _ _ _ _ _ _ hok
            refine ⟨ts :: F, ?_, ?_⟩
            · rw [hBF]
              simp
            · exact GoodTrace.step total num ts F hlt
                (timerRepeat_ok_length c _ _ _ hrep) hGT
    · rw [if_neg hlt] at hok
      injection hok with h1 h2 h3
      exact ⟨[], by rw [← h2]; simp, GoodTrace.exit total num (le_of_not_lt hlt)⟩

/-- On a well-formed trace whose entries are positive and whose initial
requested size is positive on entry, the recorded batch sizes follow the
batch-average rule `batchChainB`: each later batch's length is the ceiling
of the remaining budget over the PREVIOUS batch's average duration. -/
theorem goodTrace_batchChain (mT : ℚ) :
    ∀ (F : List (List ℚ)) (total : ℚ) (num : ℤ),
      GoodTrace mT total num F → (total < mT → 1 ≤ num) →
      (∀ b ∈ F, ∀ x ∈ b, 0 < x) →
      batchChainB mT total F = true := by
  intro F
  induction F with
  | nil =>
    intro total num _ _ _
    rfl
  | cons b rest ihF =>
    intro total num hG hnum hpos
    cases hG with
    | step _ _ _ _ hcond hlen hrest =>
      have hn1 : 1 ≤ num := hnum hcond
      have hbne : b ≠ [] := by
        intro he
        rw [he] at hlen
        simp at hlen
        omega
      have hbpos : ∀ x ∈ b, 0 < x := hpos b (List.mem_cons_self b rest)
      have hbsum : 0 < b.sum := List.sum_pos b hbpos hbne
      have hnq : (0 : ℚ) < (num : ℚ) := by exact_mod_cast (by omega : (0 : ℤ) < num)
      have havg : 0 < b.sum / (num : ℚ) := div_pos hbsum hnq
      have hcast : ((b.length : ℚ)) = (num : ℚ) := by
        rw [hlen]
        exact_mod_cast congrArg (Int.cast : ℤ → ℚ) (Int.toNat_of_nonneg (by omega))
      have hnum' : total + b.sum < mT →
          1 ≤ ⌈(mT - (total + b.sum)) / (b.sum / (num : ℚ))⌉ := by
        intro h'
        have hq : 0 < (mT - (total + b.sum)) / (b.sum / (num : ℚ)) :=
          div_pos (by linarith) havg
        have := Int.ceil_pos.mpr hq
        omega
      have hposRest : ∀ b' ∈ rest, ∀ x ∈ b', 0 < x :=
        fun b' hb' => hpos b' (List.mem_cons_of_mem b hb')
      cases rest with
      | nil => rfl
      | cons b' rest' =>
        cases hrest with
        | step _ _ _ _ hcond' hlen' hrest' =>
          rw [batchChainB, Bool.and_eq_true]
          constructor
          · dsimp only
            rw [decide_eq_true_iff]
            have hceil1 : 1 ≤ ⌈(mT - (total + b.sum)) / (b.sum / (num : ℚ))⌉ :=
              hnum' hcond'
            rw [hlen', hcast]
            exact Int.toNat_of_nonneg (by omega)
          · exact ihF (total + b.sum) _
              (GoodTrace.step _ _ b' rest' hcond' hlen' hrest') hnum' hposRest

/-- Claim C3 (amended: the divisor is the average of the most recent batch
alone, not of all recorded trials — see the counterexample for the
difference): on every completed run with positive observed durations, each
pass of the loop that still misses the budget requests
`ceil((min_total_seconds - elapsed) / a)` further trials where `a` is the
average per-trial duration of the batch just measured (its recorded total
divided by its size). -/
theorem benchmark_batch_average_rule (c : Callable) (mT : ℚ) (mI : ℤ) (fuel : ℕ)
    (T : List ℚ) (B : List (List ℚ)) (N : ℕ)
    (hpos : ∀ i, 0 < c.dur i)
    (hok : benchmark c mT mI fuel = Outcome.ok T B N) :
    batchChainB mT 0 B = true := by
  obtain ⟨h2, hf0, hloop⟩ := benchmark_ok_elim c mT mI fuel T B N hok
  obtain ⟨F, hBF, hGT⟩ := benchLoop_ok_goodTrace c mT fuel [] [] 0 mI 1 T B N hloop
  have hB : B = F := by simpa using hBF
  subst hB
  obtain ⟨g1, g2, g3, g4, g5, g6⟩ :=
    benchLoop_ok_master c mT (0 < ·) hpos fuel [] [] 0 mI 1 T B N hloop rfl rfl rfl
      (by intro x hx; cases hx)
  exact goodTrace_batchChain mT B 0 mI hGT (fun _ => by omega)
    (fun b hb x hx => g4 x (by rw [← g3]; exact List.mem_flatten.mpr ⟨b, hb, hx⟩))

/-- Witness for C3 (amended) on the reference run: its single-batch trace
satisfies the batch-average rule vacuously. -/
theorem benchmark_batch_average_rule_witness :
    batchChainB 1 0 [[1/2, 1/2]] = true :=
  benchmark_batch_average_rule (constCall (1/2)) 1 2 3 [1/2, 1/2] [[1/2, 1/2]] 3
    (fun i => by norm_num [constCall]) benchRun_half

/-! ## Termination of the accumulation loop -/

/-- On a well-formed trace with positive entries and a positive pending
request, every batch is non-empty. -/
theorem goodTrace_batches_nonempty (mT : ℚ) :
    ∀ (F : List (List ℚ)) (total : ℚ) (num : ℤ),
      GoodTrace mT total num F → (total < mT → 1 ≤ num) →
      (∀ b ∈ F, ∀ x ∈ b, 0 < x) →
      ∀ b ∈ F, b ≠ [] := by
  intro F
  induction F with
  | nil =>
    intro total num _ _ _ b hb
    exact absurd hb (List.not_mem_nil b)
  | cons b rest ihF =>
    intro total num hG hnum hpos b' hb'
    cases hG with
    | step _ _ _ _ hcond hlen hrest =>
      have hn1 : 1 ≤ num := hnum hcond
      have hbne : b ≠ [] := by
        intro he
        rw [he] at hlen
        simp at hlen
        omega
      rcases List.mem_cons.mp hb' with hb' | hb'
      · rw [hb']
        exact hbne
      · have hbpos : ∀ x ∈ b, 0 < x := hpos b (List.mem_cons_self b rest)
        have hbsum : 0 < b.sum := List.sum_pos b hbpos hbne
        have hnq : (0 : ℚ) < (num : ℚ) := by exact_mod_cast (by omega : (0 : ℤ) < num)
        have havg : 0 < b.sum / (num : ℚ) := div_pos hbsum hnq
        have hnum' : total + b.sum < mT →
            1 ≤ ⌈(mT - (total + b.sum)) / (b.sum / (num : ℚ))⌉ := by
          intro h'
          have hq : 0 < (mT - (total + b.sum)) / (b.sum / (num : ℚ)) :=
            div_pos (by linarith) havg
          have := Int.ceil_pos.mpr hq
          omega
        exact ihF (total + b.sum) _ hrest hnum'
          (fun bb hbb => hpos bb (List.mem_cons_of_mem b hbb)) b' hb'

/-- On a well-formed trace, every proper prefix of the batches was
insufficient: the loop only ran another batch because the elapsed total
was still below the budget. -/
theorem goodTrace_take_lt (mT : ℚ) :
    ∀ (F : List (List ℚ)) (total : ℚ) (num : ℤ),
      GoodTrace mT total num F →
      ∀ k, k < F.length → total + ((F.take k).flatten).sum < mT := by
  intro F
  induction F with
  | nil =>
    intro total num _ k hk
    exact absurd hk (by simp)
  | cons b rest ihF =>
    intro total num hG k hk
    cases hG with
    | step _ _ _ _ hcond hlen hrest =>
      cases k with
      | zero => simpa using hcond
      | succ k =>
        have hk' : k < rest.length := by simpa using hk
        have := ihF (total + b.sum) _ hrest k hk'
        rw [List.take_succ_cons, List.flatten_cons, List.sum_append]
        linarith

/-- With every observed duration at least `d > 0` and a never-raising
callable, the loop finishes within any fuel `f` satisfying
`mT - total ≤ f * d`: each pass it survives adds at least `d` to the
elapsed total. -/
theorem benchLoop_terminates (c : Callable) (mT : ℚ) (d : ℚ) (hd : 0 < d)
    (hdur : ∀ i, d ≤ c.dur i) (hfail : ∀ i, c.fails i = false) (fuel : ℕ) :
    ∀ (times : List ℚ) (batches : List (List ℚ)) (total : ℚ) (num : ℤ) (next : ℕ),
      (total < mT → 1 ≤ num) → mT - total ≤ (fuel : ℚ) * d →
      ∃ T B N, benchLoop c mT fuel times batches total num next = Outcome.ok T B N := by
  induction fuel with
  | zero =>
    intro times batches total num next hnum hbound
    have hexit : ¬ total < mT := by
      intro h
      rw [Nat.cast_zero, zero_mul] at hbound
      linarith
    exact ⟨times, batches, next, by rw [benchLoop, if_neg hexit]⟩
  | succ f ih =>
    intro times batches total num next hnum hbound
    by_cases hlt : total < mT
    · have hn1 : 1 ≤ num := hnum hlt
      obtain ⟨ts, hrep⟩ := timerRepeat_noFail c hfail num.toNat next
      have hlen : ts.length = num.toNat := timerRepeat_ok_length c _ _ _ hrep
      have htsd : ∀ x ∈ ts, d ≤ x := timerRepeat_ok_forall c (d ≤ ·) hdur _ _ _ hrep
      have hsum_ge : (num : ℚ) * d ≤ ts.sum := by
        have h := list_length_mul_le_sum d ts htsd
        rw [hlen] at h
        have hcast : ((num.toNat : ℕ) : ℚ) = (num : ℚ) := by
          exact_mod_cast congrArg (Int.cast : ℤ → ℚ) (Int.toNat_of_nonneg (by omega))
        rw [hcast] at h
        exact h
      have hnq : (0 : ℚ) < (num : ℚ) := by exact_mod_cast (by omega : (0 : ℤ) < num)
      have hd_le : d ≤ ts.sum := by
        calc d = 1 * d := (one_mul d).symm
          _ ≤ (num : ℚ) * d := by
              apply mul_le_mul_of_nonneg_right _ (le_of_lt hd)
              exact_mod_cast hn1
          _ ≤ ts.sum := hsum_ge
      have htspos : 0 < ts.sum := lt_of_lt_of_le hd hd_le
      have havg : 0 < ts.sum / (num : ℚ) := div_pos htspos hnq
      have hnum' : total + ts.sum < mT →
          1 ≤ ⌈(mT - (total + ts.sum)) / (ts.sum / (num : ℚ))⌉ := by
        intro h'
        have hq : 0 < (mT - (total + ts.sum)) / (ts.sum / (num : ℚ)) :=
          div_pos (by linarith) havg
        have := Int.ceil_pos.mpr hq
        omega
      have hbound' : mT - (total + ts.sum) ≤ (f : ℚ) * d := by
        have : ((f : ℚ) + 1) * d = (f : ℚ) * d + d := by ring
        rw [Nat.cast_succ, this] at hbound
        linarith
      obtain ⟨T, B, N, hT⟩ := ih (times ++ ts) (batches ++ [ts]) (total + ts.sum)
        ⌈(mT - (total + ts.sum)) / (ts.sum / (num : ℚ))⌉ (next + num.toNat) hnum' hbound'
      refine ⟨T, B, N, ?_⟩
      rw [benchLoop_step c mT f times batches total num next ts hlt hrep
        (by omega) (ne_of_gt havg)]
      exact hT
    · exact ⟨times, batches, next, by rw [benchLoop, if_neg hlt]⟩

/-- Claim C9 (confirmed): when every timed invocation takes at least a
fixed `d > 0` (and the callable never raises), the accumulation loop
terminates — fuel proportional to the budget suffices — and the run
completes with the recorded total at or above the budget; every batch
strictly increased the running total, and the loop exited exactly when the
budget was reached: every proper prefix of the batch trace still sums to
below `min_total_seconds`. -/
theorem benchmark_terminates (c : Callable) (mT : ℚ) (mI : ℤ) (fuel : ℕ) (d : ℚ)
    (hd : 0 < d) (hdur : ∀ i, d ≤ c.dur i) (hfail : ∀ i, c.fails i = false)
    (h2 : 2 ≤ mI) (hbound : mT ≤ (fuel : ℚ) * d) :
    (benchmark c mT mI fuel).isOk = true ∧
      mT ≤ (benchmark c mT mI fuel).times.sum ∧
      (∀ b ∈ (benchmark c mT mI fuel).batches, b ≠ [] ∧ 0 < b.sum) ∧
      (∀ k, k < (benchmark c mT mI fuel).batches.length →
        ((((benchmark c mT mI fuel).batches.take k).flatten).sum < mT)) := by
  rw [benchmark_unfold c mT mI fuel (by omega) (hfail 0)]
  obtain ⟨T, B, N, hok⟩ := benchLoop_terminates c mT d hd hdur hfail fuel [] [] 0 mI 1
    (fun _ => by omega) (by simpa using hbound)
  rw [hok]
  obtain ⟨g1, g2, g3, g4, g5, g6⟩ :=
    benchLoop_ok_master c mT (0 < ·) (fun i => lt_of_lt_of_le hd (hdur i))
      fuel [] [] 0 mI 1 T B N hok rfl rfl rfl (by intro x hx; cases hx)
  obtain ⟨F, hBF, hGT⟩ := benchLoop_ok_goodTrace c mT fuel [] [] 0 mI 1 T B N hok
  have hBF' : B = F := by simpa using hBF
  subst hBF'
  have hposB : ∀ b ∈ B, ∀ x ∈ b, 0 < x :=
    fun b hb x hx => g4 x (by rw [← g3]; exact List.mem_flatten.mpr ⟨b, hb, hx⟩)
  have hne : ∀ b ∈ B, b ≠ [] :=
    goodTrace_batches_nonempty mT B 0 mI hGT (fun _ => by omega) hposB
  refine ⟨rfl, g1, ?_, ?_⟩
  · intro b hb
    exact ⟨hne b hb, List.sum_pos b (hposB b hb) (hne b hb)⟩
  · intro k hk
    have := goodTrace_take_lt mT B 0 mI hGT k (by simpa using hk)
    simpa using this

/-- Witness for C9: the half-second constant callable with budget `1` and
fuel `2` completes with a full-budget record. -/
theorem benchmark_terminates_witness :
    (benchmark (constCall (1/2)) 1 2 2).isOk = true ∧
      (1 : ℚ) ≤ (benchmark (constCall (1/2)) 1 2 2).times.sum :=
  (fun h => ⟨h.1, h.2.1⟩)
    (benchmark_terminates (constCall (1/2)) 1 2 2 (1/2) (by norm_num)
      (fun i => by norm_num [constCall]) (fun i => rfl) (by norm_num)
      (by norm_num))
